import Mathlib

/-!
# Verification of the dora beacon-chain indexer's DB writer and controller loop

Shallow embedding of the `dbWriter` (persistEpochData, persistMissedSlots,
buildDbEpoch, buildDbBlock, buildDbDeposits, buildDbSlashings,
persistSyncAssignments) and of the controller loop in `indexer.go`
(finality-event handling, wall-clock prune trigger, restart recovery of
unfinalized duties).

Machine integers (Go uint64/uint8) are modelled as `Nat`, with explicit
`% 2 ^ 8` where a Go conversion truncates.  Opaque byte values (roots,
public keys) are modelled as `Nat` identifiers.  Floating-point aggregate
fields (sync participation) and execution-payload statistics are not part
of any verified property and are omitted from the row models.
-/

namespace Dora

/-- Go's `math.MaxInt64`, used as the placeholder proposer for a missed slot
when no epoch stats are available. -/
def maxInt64 : Nat := 2 ^ 63 - 1

/-- Chain spec constants consulted through the chain-state reader. -/
structure ChainSpecs where
  slotsPerEpoch : Nat
  altairForkEpoch : Nat
  epochsPerSyncCommitteePeriod : Nat
  deriving Repr, DecidableEq

/-- `chainState.EpochStartSlot(epoch)`. -/
def epochStartSlot (specs : ChainSpecs) (epoch : Nat) : Nat :=
  epoch * specs.slotsPerEpoch

/-- One deposit of a block body (`deposit.Data`). -/
structure DepositData where
  publicKey : Nat
  withdrawalCredentials : Nat
  amount : Nat
  deriving Repr, DecidableEq

/-- One attester slashing of a block body.  The attestations and their
attesting-index lists are fallible accessors in the source (`Attestation1()`,
`AttestingIndices()`), hence `Option`. -/
structure AttesterSlashing where
  att1 : Option (List Nat)
  att2 : Option (List Nat)
  deriving Repr, DecidableEq

/-- One proposer slashing of a block body; only the first signed header's
proposer index is read by the writer. -/
structure ProposerSlashing where
  header1Proposer : Nat
  deriving Repr, DecidableEq

/-- The decoded block body, restricted to the fields the DB writer reads.
Count-only fields (attestations, voluntary exits, BLS changes) are kept as
lists of opaque elements so that the writer's `len(...)` reads stay visible. -/
structure BlockBody where
  proposerIndex : Nat
  attestations : List Unit
  deposits : List DepositData
  voluntaryExits : List Unit
  attesterSlashings : List AttesterSlashing
  proposerSlashings : List ProposerSlashing
  deriving Repr, DecidableEq

/-- A cached block: root, slot, fork id, and an optional decoded body
(`block.GetBlock()` returns nil when the body is absent). -/
structure Block where
  root : Nat
  slot : Nat
  proposer : Nat
  forkId : Nat
  body : Option BlockBody
  deriving Repr, DecidableEq

/-- `EpochStatsValues`: the resolved duty assignments and balance aggregates
for one `(epoch, dependentRoot)` pair. -/
structure EpochStatsValues where
  activeValidators : Nat
  activeBalance : Nat
  effectiveBalance : Nat
  firstDepositIndex : Nat
  proposerDuties : List Nat
  syncCommitteeDuties : List Nat
  deriving Repr, DecidableEq

/-- `dbtypes` slot status enum. -/
inductive SlotStatus where
  | Missing
  | Canonical
  | Orphaned
  deriving Repr, DecidableEq

/-- `dbtypes.SlotHeader`: the row inserted for a missed slot. -/
structure SlotHeaderRow where
  slot : Nat
  proposer : Nat
  status : SlotStatus
  deriving Repr, DecidableEq

/-- `dbtypes.Slot`: the row inserted for an observed block, restricted to the
fields the verified properties touch. -/
structure SlotRow where
  slot : Nat
  proposer : Nat
  status : SlotStatus
  forkId : Nat
  root : Nat
  attestationCount : Nat
  depositCount : Nat
  exitCount : Nat
  attesterSlashingCount : Nat
  proposerSlashingCount : Nat
  deriving Repr, DecidableEq

/-- `dbtypes.Deposit`. -/
structure DepositRow where
  slotNumber : Nat
  slotIndex : Nat
  slotRoot : Nat
  orphaned : Bool
  forkId : Nat
  index : Option Nat
  publicKey : Nat
  withdrawalCredentials : Nat
  amount : Nat
  deriving Repr, DecidableEq

/-- `dbtypes.VoluntaryExit`. -/
structure VoluntaryExitRow where
  slotNumber : Nat
  slotIndex : Nat
  slotRoot : Nat
  orphaned : Bool
  forkId : Nat
  deriving Repr, DecidableEq

/-- `dbtypes` slashing reason enum. -/
inductive SlashingReason where
  | ProposerSlashing
  | AttesterSlashing
  deriving Repr, DecidableEq

/-- `dbtypes.Slashing`. -/
structure SlashingRow where
  slotNumber : Nat
  slotIndex : Nat
  slotRoot : Nat
  orphaned : Bool
  forkId : Nat
  validatorIndex : Nat
  slasherIndex : Nat
  reason : SlashingReason
  deriving Repr, DecidableEq

/-- `dbtypes.SyncAssignment`. -/
structure SyncAssignmentRow where
  period : Nat
  index : Nat
  validator : Nat
  deriving Repr, DecidableEq

/-- `dbtypes.Epoch`, restricted to the aggregate fields the verified
properties touch. -/
structure EpochRow where
  epoch : Nat
  blockCount : Nat
  attestationCount : Nat
  depositCount : Nat
  exitCount : Nat
  attesterSlashingCount : Nat
  proposerSlashingCount : Nat
  validatorCount : Nat
  deriving Repr, DecidableEq

/-- The proposer recorded for a missed slot at index `idx` within the epoch:
`epochStatsValues.ProposerDuties[idx]` when stats are available, otherwise the
`math.MaxInt64` placeholder. -/
def missedSlotProposer (esv : Option EpochStatsValues) (idx : Nat) : Nat :=
  match esv with
  | some v => v.proposerDuties.getD idx 0
  | none => maxInt64

/-- The `dbtypes.SlotHeader` literal built for the missed slot `s`. -/
def missedRowAt (esv : Option EpochStatsValues) (firstSlot s : Nat) : SlotHeaderRow :=
  { slot := s, proposer := missedSlotProposer esv (s - firstSlot),
    status := SlotStatus.Missing }

/-- The slot loop of `persistMissedSlots`: `fuel` remaining slots starting at
`slot`, with the `blockIdx` cursor represented by the remaining suffix of the
slot-ascending block list.  A slot matched by the cursor's head block is
skipped; every other slot yields one `Missing` row. -/
def persistMissedSlotsLoop (esv : Option EpochStatsValues) (firstSlot : Nat) :
    Nat → Nat → List Block → List SlotHeaderRow
  | 0, _, _ => []
  | fuel + 1, slot, blocks =>
    match blocks with
    | b :: rest =>
      if b.slot = slot then
        persistMissedSlotsLoop esv firstSlot fuel (slot + 1) rest
      else
        missedRowAt esv firstSlot slot ::
          persistMissedSlotsLoop esv firstSlot fuel (slot + 1) (b :: rest)
    | [] =>
      missedRowAt esv firstSlot slot ::
        persistMissedSlotsLoop esv firstSlot fuel (slot + 1) []

/-- `persistMissedSlots`: iterates the `SLOTS_PER_EPOCH` slots of `epoch` and
inserts one `Missing` slot-header row for every slot not covered by the
canonical block list. -/
def persistMissedSlots (specs : ChainSpecs) (epoch : Nat) (blocks : List Block)
    (esv : Option EpochStatsValues) : List SlotHeaderRow :=
  persistMissedSlotsLoop esv (epochStartSlot specs epoch) specs.slotsPerEpoch
    (epochStartSlot specs epoch) blocks

/-- `buildDbBlock`: translates one cached block into a `Slot` row with status
`Canonical` (the caller flips it to `Orphaned` afterwards), applying the
fork-id override when present.  Returns `none` when the block body is
missing, as the source logs and returns nil. -/
def buildDbBlock (block : Block) (overrideForkId : Option Nat) : Option SlotRow :=
  match block.body with
  | none => none
  | some body =>
    let row : SlotRow :=
      { slot := block.slot
        proposer := block.proposer
        status := SlotStatus.Canonical
        forkId := block.forkId
        root := block.root
        attestationCount := body.attestations.length
        depositCount := body.deposits.length
        exitCount := body.voluntaryExits.length
        attesterSlashingCount := body.attesterSlashings.length
        proposerSlashingCount := body.proposerSlashings.length }
    some (match overrideForkId with
          | some f => { row with forkId := f }
          | none => row)

/-- The deposit loop of `buildDbDeposits`: one row per deposit, threading the
shared deposit-index pointer (incremented once per deposit when non-nil). -/
def buildDbDepositsLoop (block : Block) (orphaned : Bool)
    (overrideForkId : Option Nat) :
    List DepositData → Nat → Option Nat → List DepositRow × Option Nat
  | [], _, depositIndex => ([], depositIndex)
  | deposit :: rest, idx, depositIndex =>
    let row : DepositRow :=
      { slotNumber := block.slot
        slotIndex := idx
        slotRoot := block.root
        orphaned := orphaned
        forkId := match overrideForkId with
                  | some f => f
                  | none => block.forkId
        index := depositIndex
        publicKey := deposit.publicKey
        withdrawalCredentials := deposit.withdrawalCredentials
        amount := deposit.amount }
    let depositIndex' := match depositIndex with
                         | some d => some (d + 1)
                         | none => none
    let recur :=
      buildDbDepositsLoop block orphaned overrideForkId rest (idx + 1) depositIndex'
    (row :: recur.1, recur.2)

/-- `buildDbDeposits`: deposit rows for one block, returning the updated
deposit-index pointer (the source mutates it through a `*uint64`). -/
def buildDbDeposits (block : Block) (depositIndex : Option Nat) (orphaned : Bool)
    (overrideForkId : Option Nat) : List DepositRow × Option Nat :=
  match block.body with
  | none => ([], depositIndex)
  | some body => buildDbDepositsLoop block orphaned overrideForkId body.deposits 0 depositIndex

/-- `persistBlockDeposits`: builds the deposit rows and, when the block is
orphaned, re-marks every row as orphaned before insertion. -/
def persistBlockDeposits (block : Block) (depositIndex : Option Nat)
    (orphaned : Bool) (overrideForkId : Option Nat) : List DepositRow × Option Nat :=
  let built := buildDbDeposits block depositIndex orphaned overrideForkId
  (if orphaned then built.1.map (fun d => { d with orphaned := true }) else built.1,
   built.2)

/-- `buildDbVoluntaryExits`: one row per voluntary exit of the block. -/
def buildDbVoluntaryExits (block : Block) (orphaned : Bool)
    (overrideForkId : Option Nat) : List VoluntaryExitRow :=
  match block.body with
  | none => []
  | some body =>
    (List.range body.voluntaryExits.length).map (fun idx =>
      { slotNumber := block.slot
        slotIndex := idx
        slotRoot := block.root
        orphaned := orphaned
        forkId := match overrideForkId with
                  | some f => f
                  | none => block.forkId })

/-- `intersect.Simple(a, b)`: the elements of `a` that occur in `b`, in `a`'s
order, duplicates of `a` preserved. -/
def intersectSimple (a b : List Nat) : List Nat :=
  a.filter (fun x => x ∈ b)

/-- The proposer-slashing loop of `buildDbSlashings`: one row per proposer
slashing, consuming one `slashingIndex` each, with the fork-id override
applied.  Returns the rows and the final `slashingIndex`. -/
def proposerSlashingRowsLoop (block : Block) (orphaned : Bool)
    (overrideForkId : Option Nat) (proposerIndex : Nat) :
    List ProposerSlashing → Nat → List SlashingRow × Nat
  | [], slashingIndex => ([], slashingIndex)
  | ps :: rest, slashingIndex =>
    let row : SlashingRow :=
      { slotNumber := block.slot
        slotIndex := slashingIndex
        slotRoot := block.root
        orphaned := orphaned
        forkId := match overrideForkId with
                  | some f => f
                  | none => block.forkId
        validatorIndex := ps.header1Proposer
        slasherIndex := proposerIndex
        reason := SlashingReason.ProposerSlashing }
    let recur :=
      proposerSlashingRowsLoop block orphaned overrideForkId proposerIndex rest
        (slashingIndex + 1)
    (row :: recur.1, recur.2)

/-- The row expansion for one attester slashing: one row per element of
`intersect.Simple` of the two attesting-index lists, every row hard-coding
`Orphaned = false` and leaving `ForkId` at the Go zero value `0`; an
unreadable attestation or index list skips the slashing entirely. -/
def attesterSlashingRows (block : Block) (proposerIndex : Nat)
    (slashingIndex : Nat) (s : AttesterSlashing) : List SlashingRow :=
  match s.att1, s.att2 with
  | some att1Indices, some att2Indices =>
    (intersectSimple att1Indices att2Indices).map (fun valIdx =>
      { slotNumber := block.slot
        slotIndex := slashingIndex
        slotRoot := block.root
        orphaned := false
        forkId := 0
        validatorIndex := valIdx
        slasherIndex := proposerIndex
        reason := SlashingReason.AttesterSlashing })
  | _, _ => []

/-- Whether the attester-slashing loop increments `slashingIndex` for `s`:
the source's `continue` on a nil attestation or index list skips the
increment. -/
def attesterSlashingCounted (s : AttesterSlashing) : Bool :=
  match s.att1, s.att2 with
  | some _, some _ => true
  | _, _ => false

/-- The attester-slashing loop of `buildDbSlashings`. -/
def attesterSlashingRowsLoop (block : Block) (proposerIndex : Nat) :
    List AttesterSlashing → Nat → List SlashingRow
  | [], _ => []
  | s :: rest, slashingIndex =>
    attesterSlashingRows block proposerIndex slashingIndex s ++
      attesterSlashingRowsLoop block proposerIndex rest
        (if attesterSlashingCounted s then slashingIndex + 1 else slashingIndex)

/-- `buildDbSlashings`: proposer-slashing rows first, then attester-slashing
rows, sharing one running `slashingIndex`. -/
def buildDbSlashings (block : Block) (orphaned : Bool)
    (overrideForkId : Option Nat) : List SlashingRow :=
  match block.body with
  | none => []
  | some body =>
    let proposerPart :=
      proposerSlashingRowsLoop block orphaned overrideForkId body.proposerIndex
        body.proposerSlashings 0
    proposerPart.1 ++
      attesterSlashingRowsLoop block body.proposerIndex body.attesterSlashings
        proposerPart.2

/-- `persistBlockSlashings`: inserts exactly the rows `buildDbSlashings`
builds; no orphaned fix-up is applied to slashing rows. -/
def persistBlockSlashings (block : Block) (orphaned : Bool)
    (overrideForkId : Option Nat) : List SlashingRow :=
  buildDbSlashings block orphaned overrideForkId

/-- The rows inserted for one block by `persistBlockData` and its child-object
writers, together with the updated deposit-index pointer. -/
structure BlockPersistOut where
  slotRow : Option SlotRow
  depositRows : List DepositRow
  voluntaryExitRows : List VoluntaryExitRow
  slashingRows : List SlashingRow
  newDepositIndex : Option Nat
  deriving Repr, DecidableEq

/-- `persistBlockData`: inserts the `Slot` row (status flipped to `Orphaned`
when requested) and the child rows for deposits, voluntary exits and
slashings.  Consolidations and EL requests are stubbed to empty lists in the
source and carry no rows. -/
def persistBlockData (block : Block) (depositIndex : Option Nat)
    (orphaned : Bool) (overrideForkId : Option Nat) : BlockPersistOut :=
  let dbBlock := buildDbBlock block overrideForkId
  let dbBlock := if orphaned then
      dbBlock.map (fun row => { row with status := SlotStatus.Orphaned })
    else dbBlock
  let depositsPart :=
    persistBlockDeposits block depositIndex orphaned overrideForkId
  { slotRow := dbBlock
    depositRows := depositsPart.1
    voluntaryExitRows := buildDbVoluntaryExits block orphaned overrideForkId
    slashingRows := persistBlockSlashings block orphaned overrideForkId
    newDepositIndex := depositsPart.2 }

/-- The slot loop of `buildDbEpoch`: `fuel` remaining slots starting at
`slot`, with the `blockIdx` cursor as the remaining block-list suffix.  A
matched block bumps `BlockCount`; if its body decodes, `blockFn` runs (the
per-block persistence, threading the deposit-index pointer) and the body's
operation counts are added to the epoch aggregates.  Vote totals, sync
participation and execution-payload aggregates are outside the verified
properties and are not carried. -/
def buildDbEpochLoop (blockFn : Block → Option Nat → BlockPersistOut) :
    Nat → Nat → List Block → Option Nat → EpochRow → EpochRow × List BlockPersistOut
  | 0, _, _, _, agg => (agg, [])
  | fuel + 1, slot, blocks, depositIndex, agg =>
    match blocks with
    | b :: rest =>
      if b.slot = slot then
        let agg := { agg with blockCount := agg.blockCount + 1 }
        match b.body with
        | none =>
          buildDbEpochLoop blockFn fuel (slot + 1) rest depositIndex agg
        | some body =>
          let out := blockFn b depositIndex
          let agg := { agg with
            attestationCount := agg.attestationCount + body.attestations.length
            depositCount := agg.depositCount + body.deposits.length
            exitCount := agg.exitCount + body.voluntaryExits.length
            attesterSlashingCount :=
              agg.attesterSlashingCount + body.attesterSlashings.length
            proposerSlashingCount :=
              agg.proposerSlashingCount + body.proposerSlashings.length }
          let recur :=
            buildDbEpochLoop blockFn fuel (slot + 1) rest out.newDepositIndex agg
          (recur.1, out :: recur.2)
      else
        buildDbEpochLoop blockFn fuel (slot + 1) (b :: rest) depositIndex agg
    | [] =>
      buildDbEpochLoop blockFn fuel (slot + 1) [] depositIndex agg

/-- `buildDbEpoch`: seeds the epoch row from the epoch stats (validator count;
deposit-index pointer from `FirstDepositIndex`) and aggregates the epoch's
`SLOTS_PER_EPOCH` slots, invoking `blockFn` on every matched block with a
body. -/
def buildDbEpoch (specs : ChainSpecs) (epoch : Nat) (blocks : List Block)
    (esv : Option EpochStatsValues) (blockFn : Block → Option Nat → BlockPersistOut) :
    EpochRow × List BlockPersistOut :=
  let firstSlot := epochStartSlot specs epoch
  let depositIndex : Option Nat := esv.map (fun v => v.firstDepositIndex)
  let agg : EpochRow :=
    { epoch := epoch
      blockCount := 0
      attestationCount := 0
      depositCount := 0
      exitCount := 0
      attesterSlashingCount := 0
      proposerSlashingCount := 0
      validatorCount := match esv with
                        | some v => v.activeValidators
                        | none => 0 }
  buildDbEpochLoop blockFn specs.slotsPerEpoch firstSlot blocks depositIndex agg

/-- Everything `persistEpochData` inserts for one epoch: the per-block rows
(in slot order), the missed-slot rows, and the epoch row. -/
structure EpochPersistOut where
  epochRow : EpochRow
  blockOuts : List BlockPersistOut
  missedRows : List SlotHeaderRow
  deriving Repr, DecidableEq

/-- `persistEpochData`: persists every canonical block through
`persistBlockData` with `orphaned = false` and the canonical fork-id override
`0`, then the missed slots, then the epoch row. -/
def persistEpochData (specs : ChainSpecs) (epoch : Nat) (blocks : List Block)
    (esv : Option EpochStatsValues) : EpochPersistOut :=
  let canonicalForkId : Nat := 0
  let built :=
    buildDbEpoch specs epoch blocks esv
      (fun block depositIndex =>
        persistBlockData block depositIndex false (some canonicalForkId))
  { epochRow := built.1
    blockOuts := built.2
    missedRows := persistMissedSlots specs epoch blocks esv }

/-- `persistSyncAssignments`: inserts one `SyncAssignment` row per
sync-committee duty unless the epoch is pre-Altair, the epoch stats are
unavailable, or the epoch is not a period start and the period is already
marked synchronized in the DB (`db.IsSyncCommitteeSynchronized`). -/
def persistSyncAssignments (specs : ChainSpecs) (epoch : Nat)
    (esv : Option EpochStatsValues) (isSyncCommitteeSynchronized : Nat → Bool) :
    List SyncAssignmentRow :=
  if epoch < specs.altairForkEpoch then
    []
  else
    match esv with
    | none => []
    | some v =>
      let period := epoch / specs.epochsPerSyncCommitteePeriod
      let isStartOfPeriod :=
        decide (epoch = period * specs.epochsPerSyncCommitteePeriod)
      if !isStartOfPeriod && isSyncCommitteeSynchronized period then
        []
      else
        v.syncCommitteeDuties.enum.map (fun p =>
          { period := period, index := p.1, validator := p.2 })

/-! ## Controller loop (`indexer.go`) -/

/-- `slotProgress` as computed on a wall-clock slot event:
`uint8(100 / SlotsPerEpoch * slotIndex)`, Go integer division and a
truncating `uint8` conversion. -/
def slotProgress (slotsPerEpoch slotIndex : Nat) : Nat :=
  100 / slotsPerEpoch * slotIndex % 2 ^ 8

/-- The wall-clock prune trigger: prune when the last prune run is from an
older epoch and `slotProgress ≥ 50`. -/
def shouldPruneOnSlotEvent (lastPruneRunEpoch epoch slotIndex slotsPerEpoch : Nat) :
    Bool :=
  decide (epoch > lastPruneRunEpoch) &&
    decide (slotProgress slotsPerEpoch slotIndex ≥ 50)

/-- The controller-owned state touched by the finality branch of
`runIndexerLoop`.  `dbPruneState` is the pruning cursor persisted through
`forkCache.updatePruningState`. -/
structure IndexerState where
  lastFinalizedEpoch : Nat
  lastPrunedEpoch : Nat
  lastPruneRunEpoch : Nat
  dbPruneState : Nat
  deriving Repr, DecidableEq

/-- Modelled from the spec: `processFinalityEvent` is declared in the sources
only at its call site; per §4.I it first records the new finalized epoch
(`lastFinalizedEpoch` is updated) and then persists the affected epochs under
a DB transaction, which may fail.  `persistOk` abstracts the persistence
outcome; the returned flag is the error the caller receives. -/
def processFinalityEvent (st : IndexerState) (eventEpoch : Nat)
    (persistOk : Bool) : IndexerState × Bool :=
  ({ st with lastFinalizedEpoch := eventEpoch }, persistOk)

/-- The finality branch of `runIndexerLoop`: the error from
`processFinalityEvent` is only logged; the pruning cursor advances whenever
`lastFinalizedEpoch > lastPrunedEpoch`, and `lastPruneRunEpoch` is set to the
wall-clock current epoch. -/
def handleFinalityEvent (st : IndexerState) (eventEpoch : Nat)
    (persistOk : Bool) (currentEpoch : Nat) : IndexerState :=
  let (st1, _err) := processFinalityEvent st eventEpoch persistOk
  let st2 :=
    if st1.lastFinalizedEpoch > st1.lastPrunedEpoch then
      { st1 with
        lastPrunedEpoch := st1.lastFinalizedEpoch
        dbPruneState := st1.lastFinalizedEpoch }
    else st1
  { st2 with lastPruneRunEpoch := currentEpoch }

/-- `StartIndexer`'s initialization of `lastPrunedEpoch` from the persisted
prune state, clamped up to the current finalized epoch. -/
def startIndexerPrunedEpoch (dbPruneStateEpoch finalizedEpoch : Nat) : Nat :=
  if dbPruneStateEpoch < finalizedEpoch then finalizedEpoch else dbPruneStateEpoch

/-- What the restart-recovery callback in `StartIndexer` does with one
unfinalized-duty entry. -/
inductive DutyRestoreAction where
  /-- `dbDuty.Epoch < finalizedEpoch`: the callback returns early. -/
  | skipped
  /-- restored, then `pruneValues` discards the large duty arrays. -/
  | restoredPruned
  /-- restored with the duty values kept in memory. -/
  | restoredKept
  deriving Repr, DecidableEq

/-- The per-entry decision of the `StreamUnfinalizedDuties` callback in
`StartIndexer`: entries below the finalized epoch are skipped; restored
entries call `pruneValues` exactly when `dbDuty.Epoch < lastPrunedEpoch`. -/
def restoreUnfinalizedDuty (finalizedEpoch lastPrunedEpoch dutyEpoch : Nat) :
    DutyRestoreAction :=
  if dutyEpoch < finalizedEpoch then
    DutyRestoreAction.skipped
  else if dutyEpoch < lastPrunedEpoch then
    DutyRestoreAction.restoredPruned
  else
    DutyRestoreAction.restoredKept

/-! ## Theorems -/

/-- C7: the wall-clock prune trigger is claimed to fire when the controller
has not pruned this epoch and the slot index is at least `SLOTS_PER_EPOCH / 2`.
On mainnet parameters (32 slots per epoch) the code computes
`slotProgress = (100 / 32) * slotIndex = 3 * slotIndex` by integer division,
so at slot index 16 — exactly halfway — `slotProgress = 48 < 50` and no prune
pass runs, contradicting the claim and the code's own comment ("at least 50%
into the current"); the pass first fires at slot index 17. -/
theorem c7_prune_trigger_halfway_divergence :
    shouldPruneOnSlotEvent 0 1 16 32 = false ∧
    16 ≥ 32 / 2 ∧ (1 : Nat) > 0 ∧
    shouldPruneOnSlotEvent 0 1 17 32 = true := by
  decide

/-- C8 counterexample: a finality event whose epoch persistence fails
(`persistOk = false`) still advances `lastPrunedEpoch` and the persisted
pruning cursor, because the branch in `runIndexerLoop` only tests
`lastFinalizedEpoch > lastPrunedEpoch` and ignores the error. -/
theorem c8_pruning_advances_despite_failure :
    (handleFinalityEvent ⟨0, 0, 0, 0⟩ 5 false 6).lastPrunedEpoch = 5 ∧
    (handleFinalityEvent ⟨0, 0, 0, 0⟩ 5 false 6).dbPruneState = 5 := by
  decide

/-- C8 amended: after a finality event for `eventEpoch`, `lastPrunedEpoch`
and the persisted pruning cursor advance to `eventEpoch` exactly when it
exceeds the previous `lastPrunedEpoch`, regardless of whether epoch
persistence succeeded. -/
theorem c8_pruning_cursor_unconditional (st : IndexerState) (eventEpoch : Nat)
    (persistOk : Bool) (currentEpoch : Nat) :
    (handleFinalityEvent st eventEpoch persistOk currentEpoch).lastPrunedEpoch
      = (if eventEpoch > st.lastPrunedEpoch then eventEpoch
         else st.lastPrunedEpoch) ∧
    (handleFinalityEvent st eventEpoch persistOk currentEpoch).dbPruneState
      = (if eventEpoch > st.lastPrunedEpoch then eventEpoch
         else st.dbPruneState) := by
  unfold handleFinalityEvent processFinalityEvent
  by_cases h : eventEpoch > st.lastPrunedEpoch <;> simp [h]

/-- C9 counterexample: a restored unfinalized-duty entry whose epoch equals
`lastPrunedEpoch` keeps its duty values in memory — `pruneValues` runs only
for epochs strictly below `lastPrunedEpoch` — although the claim (epoch ≤
`lastPrunedEpoch` is pruned) requires it to be discarded. -/
theorem c9_boundary_epoch_not_pruned :
    (5 : Nat) ≤ 5 ∧
    restoreUnfinalizedDuty 5 5 5 = DutyRestoreAction.restoredKept ∧
    restoreUnfinalizedDuty 5 5 5 ≠ DutyRestoreAction.restoredPruned := by
  decide

/-- C9 amended: during restart recovery a duty entry has its duty arrays
discarded via `pruneValues` exactly when its epoch is at least the finalized
epoch (otherwise it is skipped entirely) and strictly below
`lastPrunedEpoch`; entries at or above `lastPrunedEpoch` keep their values. -/
theorem c9_restore_prunes_strictly_below (f l d : Nat) :
    (restoreUnfinalizedDuty f l d = DutyRestoreAction.restoredPruned
      ↔ f ≤ d ∧ d < l) ∧
    (restoreUnfinalizedDuty f l d = DutyRestoreAction.restoredKept
      ↔ f ≤ d ∧ l ≤ d) := by
  unfold restoreUnfinalizedDuty
  constructor <;> constructor <;> intro h
  · by_cases h1 : d < f
    · simp [h1] at h
    · by_cases h2 : d < l <;> simp [h1, h2] at h ⊢ <;> omega
  · obtain ⟨h1, h2⟩ := h
    simp [Nat.not_lt.mpr h1, h2]
  · by_cases h1 : d < f
    · simp [h1] at h
    · by_cases h2 : d < l <;> simp [h1, h2] at h ⊢ <;> omega
  · obtain ⟨h1, h2⟩ := h
    simp [Nat.not_lt.mpr h1, Nat.not_lt.mpr h2]

/-- Concrete chain specs for the sync-assignment counterexample: Altair from
genesis, a 2-epoch sync-committee period. -/
def specsSync : ChainSpecs :=
  { slotsPerEpoch := 32, altairForkEpoch := 0, epochsPerSyncCommitteePeriod := 2 }

/-- Concrete epoch stats with a single sync-committee duty. -/
def esvSync : EpochStatsValues :=
  { activeValidators := 1, activeBalance := 32, effectiveBalance := 32,
    firstDepositIndex := 0, proposerDuties := [], syncCommitteeDuties := [42] }

/-- C6 counterexample: at epoch 1 — a later epoch of sync-committee period 0,
not a period boundary — `persistSyncAssignments` still inserts rows when the
DB does not report the period as synchronized, contradicting the claim that
non-boundary epochs insert nothing. -/
theorem c6_nonboundary_epoch_inserts :
    persistSyncAssignments specsSync 1 (some esvSync) (fun _ => false)
      = [{ period := 0, index := 0, validator := 42 }] ∧
    1 % specsSync.epochsPerSyncCommitteePeriod ≠ 0 := by
  decide

/-- C6 amended: with epoch stats available at or after Altair, a
period-boundary epoch `N * EPOCHS_PER_SYNC_COMMITTEE_PERIOD` inserts exactly
one `SyncAssignment` row per sync-committee duty with `period = N`; a
non-boundary epoch inserts nothing provided the DB already reports its period
as synchronized (which the boundary insertion establishes), and otherwise
re-inserts the period's assignments. -/
theorem c6_sync_assignments (specs : ChainSpecs) (epoch : Nat)
    (v : EpochStatsValues) (sync : Nat → Bool)
    (hP : 0 < specs.epochsPerSyncCommitteePeriod)
    (hAltair : specs.altairForkEpoch ≤ epoch) :
    (∀ n, epoch = n * specs.epochsPerSyncCommitteePeriod →
      persistSyncAssignments specs epoch (some v) sync
        = v.syncCommitteeDuties.enum.map (fun p =>
            { period := n, index := p.1, validator := p.2 })) ∧
    (epoch ≠ epoch / specs.epochsPerSyncCommitteePeriod
        * specs.epochsPerSyncCommitteePeriod →
      sync (epoch / specs.epochsPerSyncCommitteePeriod) = true →
      persistSyncAssignments specs epoch (some v) sync = []) := by
  unfold persistSyncAssignments
  constructor
  · intro n hn
    have hdiv : epoch / specs.epochsPerSyncCommitteePeriod = n := by
      subst hn
      exact Nat.mul_div_cancel n hP
    simp [Nat.not_lt.mpr hAltair, hdiv, ← hn]
  · intro hne hsync
    simp [Nat.not_lt.mpr hAltair, hne, hsync]

/-- C6 witness: at the boundary epoch 2 of period 1 the single duty of
`esvSync` yields exactly one row with `period = 1`, and at the following
epoch 3 (period already synchronized) nothing is inserted. -/
theorem c6_sync_assignments_witness :
    persistSyncAssignments specsSync 2 (some esvSync) (fun _ => true)
      = [{ period := 1, index := 0, validator := 42 }] ∧
    persistSyncAssignments specsSync 3 (some esvSync) (fun _ => true) = [] := by
  refine ⟨?_, ?_⟩
  · have h := (c6_sync_assignments specsSync 2 esvSync (fun _ => true)
      (by decide) (by decide)).1 1 rfl
    simpa using h
  · exact (c6_sync_assignments specsSync 3 esvSync (fun _ => true)
      (by decide) (by decide)).2 (by decide) rfl

/-- Every row of the proposer-slashing loop carries the `ProposerSlashing`
reason, the caller's orphaned flag and the (possibly overridden) fork id; the
loop emits one row per slashing and advances the running index once each. -/
theorem proposerSlashingRowsLoop_spec (block : Block) (orphaned : Bool)
    (ofid : Option Nat) (p : Nat) :
    ∀ (l : List ProposerSlashing) (i : Nat),
      (∀ r ∈ (proposerSlashingRowsLoop block orphaned ofid p l i).1,
        r.reason = SlashingReason.ProposerSlashing ∧ r.orphaned = orphaned ∧
          r.forkId = (match ofid with
                      | some f => f
                      | none => block.forkId)) ∧
      (proposerSlashingRowsLoop block orphaned ofid p l i).1.length = l.length
  | [], i => by simp [proposerSlashingRowsLoop]
  | ps :: rest, i => by
    have ih := proposerSlashingRowsLoop_spec block orphaned ofid p rest (i + 1)
    refine ⟨?_, ?_⟩
    · intro r hr
      simp only [proposerSlashingRowsLoop] at hr
      simp only [List.mem_cons] at hr
      rcases hr with hr | hr
      · subst hr
        exact ⟨rfl, rfl, rfl⟩
      · exact ih.1 r hr
    · simp [proposerSlashingRowsLoop, ih.2]

/-- Every row of the attester-slashing loop carries the `AttesterSlashing`
reason, `Orphaned = false` and `ForkId = 0`. -/
theorem attesterSlashingRowsLoop_spec (block : Block) (p : Nat) :
    ∀ (l : List AttesterSlashing) (i : Nat),
      ∀ r ∈ attesterSlashingRowsLoop block p l i,
        r.reason = SlashingReason.AttesterSlashing ∧ r.orphaned = false ∧
          r.forkId = 0
  | [], i => by simp [attesterSlashingRowsLoop]
  | s :: rest, i => by
    intro r hr
    simp only [attesterSlashingRowsLoop] at hr
    rcases List.mem_append.mp hr with hr | hr
    · unfold attesterSlashingRows at hr
      match h1 : s.att1, h2 : s.att2 with
      | some l1, some l2 =>
        rw [h1, h2] at hr
        rcases List.mem_map.mp hr with ⟨v, _, hv⟩
        subst hv
        exact ⟨rfl, rfl, rfl⟩
      | some l1, none => rw [h1, h2] at hr; simp at hr
      | none, some l2 => rw [h1, h2] at hr; simp at hr
      | none, none => rw [h1, h2] at hr; simp at hr
    · exact attesterSlashingRowsLoop_spec block p rest _ r hr

/-- C10: when a block is persisted with `orphaned = true` and a fork-id
override, the slashing rows built for its attester slashings nevertheless
carry `Orphaned = false` and `ForkId = 0` (the attester loop never applies the
flag or the override), while its proposer-slashing rows carry the orphaned
flag and the overridden fork id. -/
theorem c10_attester_rows_ignore_override (block : Block) (f : Nat) :
    ∀ r ∈ persistBlockSlashings block true (some f),
      (r.reason = SlashingReason.AttesterSlashing →
        r.orphaned = false ∧ r.forkId = 0) ∧
      (r.reason = SlashingReason.ProposerSlashing →
        r.orphaned = true ∧ r.forkId = f) := by
  intro r hr
  unfold persistBlockSlashings buildDbSlashings at hr
  match hbody : block.body with
  | none => rw [hbody] at hr; simp at hr
  | some body =>
    rw [hbody] at hr
    simp only at hr
    rcases List.mem_append.mp hr with hr | hr
    · have h := (proposerSlashingRowsLoop_spec block true (some f)
        body.proposerIndex body.proposerSlashings 0).1 r hr
      refine ⟨fun hreason => ?_, fun _ => ⟨h.2.1, h.2.2⟩⟩
      rw [h.1] at hreason
      exact absurd hreason (by simp)
    · have h := attesterSlashingRowsLoop_spec block body.proposerIndex
        body.attesterSlashings _ r hr
      refine ⟨fun _ => ⟨h.2.1, h.2.2⟩, fun hreason => ?_⟩
      rw [h.1] at hreason
      exact absurd hreason (by simp)

/-- A concrete block with one proposer slashing and one attester slashing
whose attestations share validator index 2. -/
def blkSlash : Block :=
  { root := 100, slot := 64, proposer := 7, forkId := 5,
    body := some
      { proposerIndex := 7
        attestations := []
        deposits := []
        voluntaryExits := []
        attesterSlashings := [{ att1 := some [1, 2], att2 := some [2, 3] }]
        proposerSlashings := [{ header1Proposer := 9 }] } }

/-- The attester-slashing row `blkSlash` produces. -/
def attRowSlash : SlashingRow :=
  { slotNumber := 64, slotIndex := 1, slotRoot := 100, orphaned := false,
    forkId := 0, validatorIndex := 2, slasherIndex := 7,
    reason := SlashingReason.AttesterSlashing }

/-- C10 witness: persisting `blkSlash` as orphaned under fork-id override 11
emits its attester-slashing row with `Orphaned = false` and `ForkId = 0`. -/
theorem c10_attester_rows_ignore_override_witness :
    attRowSlash ∈ persistBlockSlashings blkSlash true (some 11) ∧
    attRowSlash.orphaned = false ∧ attRowSlash.forkId = 0 :=
  ⟨by decide,
   (c10_attester_rows_ignore_override blkSlash 11 attRowSlash (by decide)).1 rfl⟩

/-- On a duplicate-free first index list, `intersect.Simple` holds each
validator index of the set intersection exactly once. -/
theorem intersectSimple_count (l1 l2 : List Nat) (hnd : l1.Nodup) (v : Nat) :
    (intersectSimple l1 l2).count v = if v ∈ l1 ∧ v ∈ l2 then 1 else 0 := by
  unfold intersectSimple
  by_cases hm : v ∈ l1 ∧ v ∈ l2
  · rw [if_pos hm]
    have hmem : v ∈ l1.filter (fun x => decide (x ∈ l2)) := by
      simp [List.mem_filter, hm.1, hm.2]
    exact List.count_eq_one_of_mem (hnd.filter _) hmem
  · rw [if_neg hm]
    apply List.count_eq_zero_of_not_mem
    intro hmem
    rw [List.mem_filter] at hmem
    exact hm ⟨hmem.1, by simpa using hmem.2⟩

/-- The rows one attester slashing expands to, restricted to validator `v`,
are as many as `v`'s occurrences in `intersect.Simple` of its two index
lists. -/
theorem attesterSlashingRows_filter_count (block : Block) (p i : Nat)
    (s : AttesterSlashing) (v : Nat) :
    ((attesterSlashingRows block p i s).filter
        (fun r => decide (r.reason = SlashingReason.AttesterSlashing) &&
          decide (r.validatorIndex = v))).length
      = (match s.att1, s.att2 with
         | some l1, some l2 => (intersectSimple l1 l2).count v
         | _, _ => 0) := by
  unfold attesterSlashingRows
  cases h1 : s.att1 with
  | none => cases h2 : s.att2 <;> simp
  | some l1 =>
    cases h2 : s.att2 with
    | none => simp
    | some l2 =>
      simp only
      have key : ∀ inter : List Nat,
          ((inter.map (fun valIdx =>
              ({ slotNumber := block.slot, slotIndex := i, slotRoot := block.root,
                 orphaned := false, forkId := 0, validatorIndex := valIdx,
                 slasherIndex := p,
                 reason := SlashingReason.AttesterSlashing } : SlashingRow))).filter
            (fun r => decide (r.reason = SlashingReason.AttesterSlashing) &&
              decide (r.validatorIndex = v))).length = inter.count v := by
        intro inter
        induction inter with
        | nil => simp
        | cons x xs ih =>
          by_cases hx : x = v <;> simp [List.count_cons, hx, ih]
      exact key (intersectSimple l1 l2)

/-- Summed over the attester-slashing loop: the number of rows for validator
`v` is the sum over the slashings of `v`'s occurrences in their
intersections. -/
theorem attesterSlashingRowsLoop_filter_count (block : Block) (p : Nat) (v : Nat) :
    ∀ (l : List AttesterSlashing) (i : Nat),
      ((attesterSlashingRowsLoop block p l i).filter
          (fun r => decide (r.reason = SlashingReason.AttesterSlashing) &&
            decide (r.validatorIndex = v))).length
        = (l.map (fun s =>
            match s.att1, s.att2 with
            | some l1, some l2 => (intersectSimple l1 l2).count v
            | _, _ => 0)).sum
  | [], i => by simp [attesterSlashingRowsLoop]
  | s :: rest, i => by
    simp only [attesterSlashingRowsLoop, List.filter_append, List.length_append,
      List.map_cons, List.sum_cons]
    rw [attesterSlashingRows_filter_count block p i s v,
      attesterSlashingRowsLoop_filter_count block p v rest]

/-- C4: each proposer slashing of a persisted block yields exactly one
`ProposerSlashing` row, and for every validator index `v`, each attester
slashing with decodable, duplicate-free attesting-index lists yields exactly
one `AttesterSlashing` row per occurrence of `v` in the intersection of its
two lists — one row per slashed validator index. -/
theorem c4_slashing_expansion (block : Block) (body : BlockBody)
    (orphaned : Bool) (ofid : Option Nat) (hb : block.body = some body)
    (hnd : ∀ s ∈ body.attesterSlashings, (s.att1.getD []).Nodup) :
    ((buildDbSlashings block orphaned ofid).filter
        (fun r => decide (r.reason = SlashingReason.ProposerSlashing))).length
      = body.proposerSlashings.length ∧
    ∀ v, ((buildDbSlashings block orphaned ofid).filter
        (fun r => decide (r.reason = SlashingReason.AttesterSlashing) &&
          decide (r.validatorIndex = v))).length
      = (body.attesterSlashings.map (fun s =>
          match s.att1, s.att2 with
          | some l1, some l2 => if v ∈ l1 ∧ v ∈ l2 then 1 else 0
          | _, _ => 0)).sum := by
  unfold buildDbSlashings
  rw [hb]
  simp only [List.filter_append, List.length_append]
  have hprop := proposerSlashingRowsLoop_spec block orphaned ofid
    body.proposerIndex body.proposerSlashings 0
  have hatt := attesterSlashingRowsLoop_spec block body.proposerIndex
    body.attesterSlashings
  constructor
  · have h1 : ((proposerSlashingRowsLoop block orphaned ofid body.proposerIndex
        body.proposerSlashings 0).1.filter
          (fun r => decide (r.reason = SlashingReason.ProposerSlashing)))
        = (proposerSlashingRowsLoop block orphaned ofid body.proposerIndex
            body.proposerSlashings 0).1 := by
      apply List.filter_eq_self.mpr
      intro r hr
      simp [(hprop.1 r hr).1]
    have h2 : ∀ j, ((attesterSlashingRowsLoop block body.proposerIndex
        body.attesterSlashings j).filter
          (fun r => decide (r.reason = SlashingReason.ProposerSlashing))) = [] := by
      intro j
      apply List.filter_eq_nil_iff.mpr
      intro r hr
      simp [(hatt j r hr).1]
    rw [h1, h2, hprop.2]
    simp
  · intro v
    have h1 : ((proposerSlashingRowsLoop block orphaned ofid body.proposerIndex
        body.proposerSlashings 0).1.filter
          (fun r => decide (r.reason = SlashingReason.AttesterSlashing) &&
            decide (r.validatorIndex = v))) = [] := by
      apply List.filter_eq_nil_iff.mpr
      intro r hr
      simp [(hprop.1 r hr).1]
    rw [h1]
    simp only [List.length_nil, Nat.zero_add]
    rw [attesterSlashingRowsLoop_filter_count block body.proposerIndex v
      body.attesterSlashings]
    apply congrArg List.sum
    apply List.map_congr_left
    intro s hs
    have hnds := hnd s hs
    cases h1 : s.att1 with
    | none => simp
    | some l1 =>
      cases h2 : s.att2 with
      | none => simp
      | some l2 =>
        simp only
        rw [h1] at hnds
        simp only [Option.getD_some] at hnds
        exact intersectSimple_count l1 l2 hnds v

/-- C4 witness: for `blkSlash` — one proposer slashing, one attester slashing
with index lists `[1,2]` and `[2,3]` — the writer emits exactly one proposer
row and exactly one attester row for the slashed validator 2. -/
theorem c4_slashing_expansion_witness :
    ((buildDbSlashings blkSlash false none).filter
        (fun r => decide (r.reason = SlashingReason.ProposerSlashing))).length
      = 1 ∧
    ((buildDbSlashings blkSlash false none).filter
        (fun r => decide (r.reason = SlashingReason.AttesterSlashing) &&
          decide (r.validatorIndex = 2))).length = 1 := by
  have h := c4_slashing_expansion blkSlash
    { proposerIndex := 7
      attestations := []
      deposits := []
      voluntaryExits := []
      attesterSlashings := [{ att1 := some [1, 2], att2 := some [2, 3] }]
      proposerSlashings := [{ header1Proposer := 9 }] }
    false none rfl (by decide)
  exact ⟨by simpa using h.1, by simpa using h.2 2⟩

/-- The deposit loop with a live deposit-index pointer at `d` stamps its rows
with the consecutive indices `d, d+1, …` and leaves the pointer at
`d + (number of deposits)`. -/
theorem buildDbDepositsLoop_index (block : Block) (orphaned : Bool)
    (ofid : Option Nat) :
    ∀ (deposits : List DepositData) (idx d : Nat),
      (buildDbDepositsLoop block orphaned ofid deposits idx (some d)).1.map
          (fun r => r.index)
        = (List.range deposits.length).map (fun k => some (d + k)) ∧
      (buildDbDepositsLoop block orphaned ofid deposits idx (some d)).2
        = some (d + deposits.length)
  | [], idx, d => by simp [buildDbDepositsLoop]
  | dep :: rest, idx, d => by
    have ih := buildDbDepositsLoop_index block orphaned ofid rest (idx + 1) (d + 1)
    refine ⟨?_, ?_⟩
    · simp only [buildDbDepositsLoop, List.map_cons, ih.1, List.length_cons,
        List.range_succ_eq_map, List.map_map]
      refine congrArg₂ List.cons (by simp) ?_
      apply List.map_congr_left
      intro k _
      simp [Function.comp]
      omega
    · simp only [buildDbDepositsLoop, ih.2, List.length_cons]
      refine congrArg some (by omega)

/-- `persistBlockDeposits` with a live deposit-index pointer at `d`: the
inserted rows carry the consecutive indices `d, d+1, …` (the orphaned re-mark
does not touch the index) and the pointer advances by the row count. -/
theorem persistBlockDeposits_index (block : Block) (orphaned : Bool)
    (ofid : Option Nat) (d : Nat) :
    (persistBlockDeposits block (some d) orphaned ofid).1.map (fun r => r.index)
      = (List.range (persistBlockDeposits block (some d) orphaned ofid).1.length).map
          (fun k => some (d + k)) ∧
    (persistBlockDeposits block (some d) orphaned ofid).2
      = some (d + (persistBlockDeposits block (some d) orphaned ofid).1.length) := by
  unfold persistBlockDeposits buildDbDeposits
  match hbody : block.body with
  | none =>
    cases orphaned <;> simp
  | some body =>
    have h := buildDbDepositsLoop_index block orphaned ofid body.deposits 0 d
    have hlen : (buildDbDepositsLoop block orphaned ofid body.deposits 0 (some d)).1.length
        = body.deposits.length := by
      have := congrArg List.length h.1
      simpa using this
    cases orphaned with
    | false =>
      simp only [Bool.false_eq_true, if_false]
      exact ⟨h.1.trans (by rw [hlen]), h.2.trans (by rw [hlen])⟩
    | true =>
      simp only [if_true, List.map_map, List.length_map]
      have hcomp : ((fun r : DepositRow => r.index) ∘ fun x : DepositRow =>
          { x with orphaned := true }) = fun r : DepositRow => r.index := rfl
      rw [hcomp, hlen]
      exact ⟨h.1, h.2⟩

/-- The epoch slot loop threads the deposit-index pointer across its matched
blocks: starting from `d`, the concatenated deposit rows of the per-block
outputs carry the consecutive indices `d, d+1, …`. -/
theorem buildDbEpochLoop_deposit_index (orphaned : Bool) (ofid : Option Nat) :
    ∀ (fuel slot : Nat) (blocks : List Block) (d : Nat) (agg : EpochRow),
      (((buildDbEpochLoop (fun b di => persistBlockData b di orphaned ofid)
            fuel slot blocks (some d) agg).2.map (fun o => o.depositRows)).flatten.map
          (fun r => r.index))
        = (List.range (((buildDbEpochLoop (fun b di => persistBlockData b di orphaned ofid)
            fuel slot blocks (some d) agg).2.map (fun o => o.depositRows)).flatten.length)).map
            (fun k => some (d + k))
  | 0, slot, blocks, d, agg => by simp [buildDbEpochLoop]
  | fuel + 1, slot, blocks, d, agg => by
    match blocks with
    | [] =>
      simp only [buildDbEpochLoop]
      exact buildDbEpochLoop_deposit_index orphaned ofid fuel (slot + 1) [] d agg
    | b :: rest =>
      by_cases hslot : b.slot = slot
      · simp only [buildDbEpochLoop, hslot, if_true]
        match hbody : b.body with
        | none =>
          simp only
          exact buildDbEpochLoop_deposit_index orphaned ofid fuel (slot + 1) rest d _
        | some body =>
          simp only [List.map_cons, List.flatten_cons, List.map_append,
            List.length_append]
          have hout : (persistBlockData b (some d) orphaned ofid).newDepositIndex
              = some (d + (persistBlockData b (some d) orphaned ofid).depositRows.length) := by
            unfold persistBlockData
            exact (persistBlockDeposits_index b orphaned ofid d).2
          have hhead : (persistBlockData b (some d) orphaned ofid).depositRows.map
              (fun r => r.index)
              = (List.range (persistBlockData b (some d) orphaned ofid).depositRows.length).map
                  (fun k => some (d + k)) := by
            unfold persistBlockData
            exact (persistBlockDeposits_index b orphaned ofid d).1
          rw [hout]
          have ih := buildDbEpochLoop_deposit_index orphaned ofid fuel (slot + 1) rest
            (d + (persistBlockData b (some d) orphaned ofid).depositRows.length)
            { agg with
              blockCount := agg.blockCount + 1
              attestationCount := agg.attestationCount + body.attestations.length
              depositCount := agg.depositCount + body.deposits.length
              exitCount := agg.exitCount + body.voluntaryExits.length
              attesterSlashingCount :=
                agg.attesterSlashingCount + body.attesterSlashings.length
              proposerSlashingCount :=
                agg.proposerSlashingCount + body.proposerSlashings.length }
          rw [hhead, ih, List.range_add, List.map_append, List.map_map]
          refine congrArg₂ List.append rfl ?_
          apply List.map_congr_left
          intro k _
          simp [Function.comp]
          omega
      · simp only [buildDbEpochLoop, hslot, if_false]
        exact buildDbEpochLoop_deposit_index orphaned ofid fuel (slot + 1) (b :: rest) d agg

/-- C5: with epoch stats available, the `Index` values stamped on the deposit
rows persisted by `persistEpochData`, taken across the canonical blocks in
slot order, are the consecutive integers `FirstDepositIndex,
FirstDepositIndex + 1, …` — strictly monotonically increasing, incremented
once per deposit. -/
theorem c5_deposit_index_consecutive (specs : ChainSpecs) (epoch : Nat)
    (blocks : List Block) (v : EpochStatsValues) :
    (((persistEpochData specs epoch blocks (some v)).blockOuts.map
        (fun o => o.depositRows)).flatten.map (fun r => r.index))
      = (List.range (((persistEpochData specs epoch blocks (some v)).blockOuts.map
          (fun o => o.depositRows)).flatten.length)).map
          (fun k => some (v.firstDepositIndex + k)) := by
  unfold persistEpochData buildDbEpoch
  simp only [Option.map_some]
  exact buildDbEpochLoop_deposit_index false (some 0) specs.slotsPerEpoch
    (epochStartSlot specs epoch) blocks v.firstDepositIndex _

/-- The epoch slot loop and the missed-slot loop walk the same slots with the
same block-matching rule, so matched blocks and missing rows partition the
`fuel` slots. -/
theorem buildDbEpochLoop_blockCount_missed (esv : Option EpochStatsValues)
    (firstSlot : Nat) (blockFn : Block → Option Nat → BlockPersistOut)
    (fuel : Nat) :
    ∀ (slot : Nat) (blocks : List Block) (di : Option Nat) (agg : EpochRow),
      (buildDbEpochLoop blockFn fuel slot blocks di agg).1.blockCount
        + (persistMissedSlotsLoop esv firstSlot fuel slot blocks).length
        = agg.blockCount + fuel := by
  induction fuel with
  | zero =>
    intro slot blocks di agg
    simp [buildDbEpochLoop, persistMissedSlotsLoop]
  | succ fuel ih =>
    intro slot blocks di agg
    match blocks with
    | [] =>
      simp only [buildDbEpochLoop, persistMissedSlotsLoop, List.length_cons]
      have h := ih (slot + 1) [] di agg
      omega
    | b :: rest =>
      by_cases hslot : b.slot = slot
      · match hbody : b.body with
        | none =>
          simp only [buildDbEpochLoop, persistMissedSlotsLoop, hslot, if_true, hbody]
          rw [ih]
          simp
          omega
        | some body =>
          simp only [buildDbEpochLoop, persistMissedSlotsLoop, hslot, if_true, hbody]
          rw [ih]
          simp
          omega
      · simp only [buildDbEpochLoop, persistMissedSlotsLoop, hslot, if_false,
          List.length_cons]
        have h := ih (slot + 1) (b :: rest) di agg
        omega

/-- C2: for every epoch persisted through `persistEpochData`, the epoch row's
`BlockCount` plus the number of `Missing` slot rows inserted equals
`SLOTS_PER_EPOCH` — with no assumptions on the block list, since the epoch
aggregation and the missed-slot writer use the same matching loop. -/
theorem c2_blockcount_plus_missing (specs : ChainSpecs) (epoch : Nat)
    (blocks : List Block) (esv : Option EpochStatsValues) :
    (persistEpochData specs epoch blocks esv).epochRow.blockCount
      + (persistEpochData specs epoch blocks esv).missedRows.length
      = specs.slotsPerEpoch := by
  unfold persistEpochData buildDbEpoch persistMissedSlots
  have h := buildDbEpochLoop_blockCount_missed esv (epochStartSlot specs epoch)
    (fun block depositIndex => persistBlockData block depositIndex false (some 0))
    specs.slotsPerEpoch (epochStartSlot specs epoch) blocks
    (esv.map (fun v => v.firstDepositIndex))
    { epoch := epoch, blockCount := 0, attestationCount := 0, depositCount := 0,
      exitCount := 0, attesterSlashingCount := 0, proposerSlashingCount := 0,
      validatorCount := match esv with
                        | some v => v.activeValidators
                        | none => 0 }
  simpa using h

/-- The `Slot` row `persistBlockData` inserts for a block with a decoded body
records the body's attestation count, whatever the orphaned flag and fork-id
override. -/
theorem persistBlockData_attestationCount (b : Block) (body : BlockBody)
    (di : Option Nat) (orph : Bool) (ofid : Option Nat)
    (hb : b.body = some body) :
    ∃ r, (persistBlockData b di orph ofid).slotRow = some r ∧
      r.attestationCount = body.attestations.length := by
  unfold persistBlockData buildDbBlock
  rw [hb]
  cases orph <;> cases ofid <;> simp

/-- Over the epoch slot loop, the epoch row's attestation aggregate equals the
sum of the attestation counts of exactly the `Slot` rows the per-block
persistence emitted. -/
theorem buildDbEpochLoop_attestation_sum (orph : Bool) (ofid : Option Nat)
    (fuel : Nat) :
    ∀ (slot : Nat) (blocks : List Block) (di : Option Nat) (agg : EpochRow),
      (buildDbEpochLoop (fun b di => persistBlockData b di orph ofid)
          fuel slot blocks di agg).1.attestationCount
        = agg.attestationCount
          + (((buildDbEpochLoop (fun b di => persistBlockData b di orph ofid)
                fuel slot blocks di agg).2.filterMap (fun o => o.slotRow)).map
              (fun r => r.attestationCount)).sum := by
  induction fuel with
  | zero =>
    intro slot blocks di agg
    simp [buildDbEpochLoop]
  | succ fuel ih =>
    intro slot blocks di agg
    match blocks with
    | [] =>
      simp only [buildDbEpochLoop]
      exact ih (slot + 1) [] di agg
    | b :: rest =>
      by_cases hslot : b.slot = slot
      · match hbody : b.body with
        | none =>
          simp only [buildDbEpochLoop, hslot, if_true, hbody]
          rw [ih]
        | some body =>
          obtain ⟨row, hrow, hcnt⟩ :=
            persistBlockData_attestationCount b body di orph ofid hbody
          simp only [buildDbEpochLoop, hslot, if_true, hbody,
            List.filterMap_cons, hrow, List.map_cons, List.sum_cons]
          rw [ih]
          simp only [hcnt]
          omega
      · simp only [buildDbEpochLoop, hslot, if_false]
        exact ih (slot + 1) (b :: rest) di agg

/-- Concrete specs with 2-slot epochs for the epoch-aggregate counterexample. -/
def specsTwo : ChainSpecs :=
  { slotsPerEpoch := 2, altairForkEpoch := 0, epochsPerSyncCommitteePeriod := 256 }

/-- An orphaned block of epoch 0 carrying one attestation. -/
def orphanBlk : Block :=
  { root := 55, slot := 1, proposer := 3, forkId := 2,
    body := some
      { proposerIndex := 3, attestations := [()], deposits := [],
        voluntaryExits := [], attesterSlashings := [], proposerSlashings := [] } }

/-- C3 counterexample: persisting epoch 0 with no canonical block yields
`Epoch.AttestationCount = 0`, yet the epoch's `Slot` rows — the canonical
rows of `persistEpochData` together with the orphaned row persisted for
`orphanBlk` — sum to 1 attestation: the epoch aggregate does not equal the
sum over canonical and orphaned rows alike. -/
theorem c3_orphaned_rows_not_counted :
    (persistEpochData specsTwo 0 [] none).epochRow.attestationCount
      ≠ ((((persistEpochData specsTwo 0 [] none).blockOuts.filterMap
            (fun o => o.slotRow))
          ++ (persistBlockData orphanBlk none true none).slotRow.toList).map
          (fun r => r.attestationCount)).sum := by
  decide

/-- C3 amended: for every epoch persisted through `persistEpochData`, the
epoch row's `AttestationCount` equals the sum of `AttestationCount` over the
canonical `Slot` rows it inserts; orphaned rows (persisted separately with
`orphaned = true`) are not part of the aggregate. -/
theorem c3_attestation_sum_canonical (specs : ChainSpecs) (epoch : Nat)
    (blocks : List Block) (esv : Option EpochStatsValues) :
    (persistEpochData specs epoch blocks esv).epochRow.attestationCount
      = (((persistEpochData specs epoch blocks esv).blockOuts.filterMap
            (fun o => o.slotRow)).map (fun r => r.attestationCount)).sum := by
  unfold persistEpochData buildDbEpoch
  have h := buildDbEpochLoop_attestation_sum false (some 0) specs.slotsPerEpoch
    (epochStartSlot specs epoch) blocks (esv.map (fun v => v.firstDepositIndex))
    { epoch := epoch, blockCount := 0, attestationCount := 0, depositCount := 0,
      exitCount := 0, attesterSlashingCount := 0, proposerSlashingCount := 0,
      validatorCount := match esv with
                        | some v => v.activeValidators
                        | none => 0 }
  simpa using h

/-- `filterMap` respects pointwise-equal functions on the list's members. -/
theorem filterMap_congr_mem {α β : Type} {l : List α} {f g : α → Option β}
    (h : ∀ a ∈ l, f a = g a) : l.filterMap f = l.filterMap g := by
  induction l with
  | nil => rfl
  | cons x xs ih =>
    rw [List.filterMap_cons, List.filterMap_cons, h x (List.mem_cons_self x xs),
      ih (fun a ha => h a (List.mem_cons_of_mem x ha))]

/-- Peeling the first index off a `filterMap` over `range (n + 1)`. -/
theorem filterMap_range_succ {α : Type} (f : Nat → Option α) (n : Nat) :
    (List.range (n + 1)).filterMap f
      = (f 0).toList ++ (List.range n).filterMap (fun i => f (i + 1)) := by
  rw [List.range_succ_eq_map, List.filterMap_cons]
  cases h : f 0 <;>
    simp only [h, Option.toList_none, Option.toList_some, List.nil_append,
      List.singleton_append, List.filterMap_map] <;>
    first
      | exact filterMap_congr_mem (fun a _ => rfl)
      | exact congrArg₂ List.cons rfl (filterMap_congr_mem (fun a _ => rfl))

/-- On a slot-ascending block list confined to the loop's slot window, the
missed-slot loop emits exactly one `Missing` row for each uncovered slot, in
slot order, and none for covered slots. -/
theorem persistMissedSlotsLoop_filterMap (esv : Option EpochStatsValues)
    (firstSlot : Nat) (fuel : Nat) :
    ∀ (slot : Nat) (blocks : List Block),
      blocks.Pairwise (fun a b => a.slot < b.slot) →
      (∀ x ∈ blocks, slot ≤ x.slot ∧ x.slot < slot + fuel) →
      persistMissedSlotsLoop esv firstSlot fuel slot blocks
        = (List.range fuel).filterMap (fun i =>
            if slot + i ∈ blocks.map (fun x => x.slot) then none
            else some (missedRowAt esv firstSlot (slot + i))) := by
  induction fuel with
  | zero =>
    intro slot blocks _ _
    simp [persistMissedSlotsLoop]
  | succ fuel ih =>
    intro slot blocks hp hr
    rw [filterMap_range_succ]
    match blocks with
    | [] =>
      have hrec := ih (slot + 1) [] (by simp) (by simp)
      simp only [persistMissedSlotsLoop, hrec, List.map_nil, List.not_mem_nil,
        if_false, Nat.add_zero, Option.toList_some, List.singleton_append]
      refine congrArg₂ List.cons rfl ?_
      apply filterMap_congr_mem
      intro i _
      have hshift : slot + 1 + i = slot + (i + 1) := by omega
      simp [hshift]
    | b :: rest =>
      by_cases hslot : b.slot = slot
      · have hptail := (List.pairwise_cons.mp hp).2
        have hbmem := (List.pairwise_cons.mp hp).1
        have hrtail : ∀ x ∈ rest, slot + 1 ≤ x.slot ∧ x.slot < slot + 1 + fuel := by
          intro x hx
          have h1 := hbmem x hx
          have h2 := hr x (List.mem_cons_of_mem b hx)
          omega
        have hrec := ih (slot + 1) rest hptail hrtail
        have hmem0 : slot + 0 ∈ (b :: rest).map (fun x => x.slot) := by
          simp [hslot]
        simp only [persistMissedSlotsLoop, hslot, if_true, hrec, hmem0,
          Option.toList_none, List.nil_append]
        apply filterMap_congr_mem
        intro i _
        have hshift : slot + 1 + i = slot + (i + 1) := by omega
        have hbne : ¬ (slot + (i + 1) = b.slot) := by omega
        by_cases hm : slot + (i + 1) ∈ rest.map (fun x => x.slot) <;>
          simp [hshift, hbne, hm]
      · have hbgt : slot < b.slot := by
          have := (hr b (List.mem_cons_self b rest)).1
          omega
        have hnotmem : slot ∉ (b :: rest).map (fun x => x.slot) := by
          intro hmem
          rcases List.mem_map.mp hmem with ⟨x, hx, hxs⟩
          rcases List.mem_cons.mp hx with hxx | hxx
          · subst hxx
            omega
          · have h1 := (List.pairwise_cons.mp hp).1 x hxx
            omega
        have hrtail : ∀ x ∈ b :: rest, slot + 1 ≤ x.slot ∧ x.slot < slot + 1 + fuel := by
          intro x hx
          rcases List.mem_cons.mp hx with hx | hx
          · subst hx
            have := hr x (List.mem_cons_self x rest)
            omega
          · have h1 := (List.pairwise_cons.mp hp).1 x hx
            have h2 := hr x (List.mem_cons_of_mem b hx)
            omega
        have hrec := ih (slot + 1) (b :: rest) hp hrtail
        simp only [persistMissedSlotsLoop, if_neg hslot, hrec, Nat.add_zero]
        rw [if_neg hnotmem]
        simp only [Option.toList_some, List.singleton_append]
        refine congrArg₂ List.cons rfl ?_
        apply filterMap_congr_mem
        intro i _
        have hshift : slot + 1 + i = slot + (i + 1) := by omega
        simp [hshift]

/-- C1: for an epoch persisted with available epoch stats and a slot-ascending
canonical block list confined to the epoch, `persistMissedSlots` inserts
exactly one row per uncovered slot — with status `Missing` and the proposer
taken from the epoch's `ProposerDuties` at the slot's index — and no row for
any slot that has a canonical block. -/
theorem c1_missed_slots_exact (specs : ChainSpecs) (epoch : Nat)
    (blocks : List Block) (v : EpochStatsValues)
    (hsorted : blocks.Pairwise (fun a b => a.slot < b.slot))
    (hrange : ∀ x ∈ blocks, epochStartSlot specs epoch ≤ x.slot ∧
        x.slot < epochStartSlot specs epoch + specs.slotsPerEpoch) :
    persistMissedSlots specs epoch blocks (some v)
      = (List.range specs.slotsPerEpoch).filterMap (fun i =>
          if epochStartSlot specs epoch + i ∈ blocks.map (fun x => x.slot) then
            none
          else
            some { slot := epochStartSlot specs epoch + i,
                   proposer := v.proposerDuties.getD i 0,
                   status := SlotStatus.Missing }) := by
  unfold persistMissedSlots
  rw [persistMissedSlotsLoop_filterMap (some v) (epochStartSlot specs epoch)
    specs.slotsPerEpoch (epochStartSlot specs epoch) blocks hsorted hrange]
  apply filterMap_congr_mem
  intro i _
  have hidx : epochStartSlot specs epoch + i - epochStartSlot specs epoch = i := by
    omega
  simp [missedRowAt, missedSlotProposer, hidx]

/-- Concrete 4-slot specs for the missed-slot witness. -/
def specsFour : ChainSpecs :=
  { slotsPerEpoch := 4, altairForkEpoch := 0, epochsPerSyncCommitteePeriod := 256 }

/-- A canonical block at slot `s` of epoch 0 with an empty body. -/
def plainBlk (s : Nat) : Block :=
  { root := 200 + s, slot := s, proposer := s, forkId := 0,
    body := some
      { proposerIndex := s, attestations := [], deposits := [],
        voluntaryExits := [], attesterSlashings := [], proposerSlashings := [] } }

/-- C1 witness: epoch 0 of a 4-slot chain with blocks at slots 0, 2 and 3 and
duties `[10, 11, 12, 13]` gets exactly the single missed row
`(slot 1, proposer 11, Missing)`. -/
theorem c1_missed_slots_exact_witness :
    persistMissedSlots specsFour 0 [plainBlk 0, plainBlk 2, plainBlk 3]
        (some { activeValidators := 4, activeBalance := 128,
                effectiveBalance := 128, firstDepositIndex := 0,
                proposerDuties := [10, 11, 12, 13], syncCommitteeDuties := [] })
      = [{ slot := 1, proposer := 11, status := SlotStatus.Missing }] := by
  have h := c1_missed_slots_exact specsFour 0 [plainBlk 0, plainBlk 2, plainBlk 3]
    { activeValidators := 4, activeBalance := 128, effectiveBalance := 128,
      firstDepositIndex := 0, proposerDuties := [10, 11, 12, 13],
      syncCommitteeDuties := [] }
    (by decide) (by decide)
  simpa using h

end Dora
